import Mathlib

/-!
Verification of the dyadic array-operation core (`src/algorithm/dyadic/mod.rs`)
of an array-language runtime.

Arrays are modelled by `Arr`: a shape (list of dimension sizes) and a flat
row-major data buffer, mirroring `Array<T>` (`shape`, `data`).  The runtime
invariant `data.len() == product(shape)` appears as an explicit hypothesis
where a proof needs it.  The optional fill value supplied by the execution
context is modelled as an `Option α` parameter.  Machine integers are
modelled by `Nat`/`Int`; the single place the source performs a wrapping
`as usize` cast is modelled with an explicit `emod 2^64`.

Helpers that live outside the provided source file (`row_slices`,
`flat_to_dims`, `dims_to_flat`, `fill_to_shape`, `reverse_depth`,
`from_row_arrays`, `validate_size`) are modelled from the spec and marked
`Modelled from the spec:` in their doc comments.
-/

/-- Model of `Array<T>`: `shape` is the list of dimension sizes and `data`
the flat row-major buffer. -/
structure Arr (α : Type) where
  shape : List Nat
  data : List α
deriving DecidableEq, Repr

namespace Arr

/-- `Array::rank`: the number of dimensions. -/
def rank (a : Arr α) : Nat := a.shape.length

/-- `Array::row_count`: `shape.first().copied().unwrap_or(1)`. -/
def rowCount (a : Arr α) : Nat := a.shape.headD 1

/-- `Array::row_len`: the product of all dimensions after the first. -/
def rowLen (a : Arr α) : Nat := (a.shape.drop 1).prod

/-- Modelled from the spec: `row_slices` yields `row_count` contiguous
chunks of `row_len` elements each (the rows of the leading axis); it is
defined outside the provided source file. -/
def rowSlicesL (a : Arr α) : List (List α) :=
  (List.range a.rowCount).map (fun i => (a.data.drop (i * a.rowLen)).take a.rowLen)

/-- Modelled from the spec: `rows` packages each row slice as an array of
the row shape. -/
def rows (a : Arr α) : List (Arr α) :=
  a.rowSlicesL.map (fun d => ⟨a.shape.drop 1, d⟩)

end Arr

/-- Fuel-driven worker for `chunksOf`; the fuel starts at the list length,
which always suffices for a non-zero chunk size. -/
def chunksOfGo (n : Nat) : Nat → List α → List (List α)
  | _, [] => []
  | 0, _ :: _ => []
  | fuel + 1, x :: xs => (x :: xs).take n :: chunksOfGo n fuel ((x :: xs).drop n)

/-- Model of Rust `slice::chunks(n)`: consecutive chunks of `n` elements,
the final chunk possibly shorter.  (`chunks(0)` panics in Rust and is never
reached by the operators; the model returns `[]`.) -/
def chunksOf (n : Nat) (l : List α) : List (List α) := chunksOfGo n l.length l

/-- Fuel-driven worker for `chunksExact`. -/
def chunksExactGo (n : Nat) : Nat → List α → List (List α)
  | _, [] => []
  | 0, _ :: _ => []
  | fuel + 1, x :: xs =>
    if n = 0 ∨ (x :: xs).length < n then []
    else (x :: xs).take n :: chunksExactGo n fuel ((x :: xs).drop n)

/-- Model of Rust `slice::chunks_exact(n)`: consecutive chunks of exactly
`n` elements, any shorter remainder discarded. -/
def chunksExact (n : Nat) (l : List α) : List (List α) := chunksExactGo n l.length l

@[simp] theorem chunksOfGo_nil (n f : Nat) : chunksOfGo n f ([] : List α) = [] := by
  cases f <;> rfl

theorem chunksOfGo_succ_cons (n f : Nat) (x : α) (xs : List α) :
    chunksOfGo n (f + 1) (x :: xs) =
      (x :: xs).take n :: chunksOfGo n f ((x :: xs).drop n) := rfl

@[simp] theorem chunksOf_nil (n : Nat) : chunksOf n ([] : List α) = [] := rfl

theorem chunksOfGo_fuel_irrel (n : Nat) (hn : n ≠ 0) :
    ∀ (f1 f2 : Nat) (l : List α), l.length ≤ f1 → l.length ≤ f2 →
      chunksOfGo n f1 l = chunksOfGo n f2 l := by
  intro f1
  induction f1 with
  | zero =>
    intro f2 l h1 _
    have : l = [] := List.eq_nil_of_length_eq_zero (Nat.le_zero.mp h1)
    subst this; simp
  | succ f ih =>
    intro f2 l h1 h2
    cases l with
    | nil => simp
    | cons x xs =>
      cases f2 with
      | zero => simp at h2
      | succ g =>
        rw [chunksOfGo_succ_cons, chunksOfGo_succ_cons]
        have hlen : ((x :: xs).drop n).length = (x :: xs).length - n := List.length_drop n _
        have hx : (x :: xs).length = xs.length + 1 := rfl
        refine congrArg _ (ih g _ ?_ ?_)
        · omega
        · omega

theorem chunksOf_eq_cons (n : Nat) (hn : n ≠ 0) (l : List α) (hl : l ≠ []) :
    chunksOf n l = l.take n :: chunksOf n (l.drop n) := by
  cases l with
  | nil => exact absurd rfl hl
  | cons x xs =>
    show chunksOfGo n (xs.length + 1) (x :: xs) = _
    rw [chunksOfGo_succ_cons]
    refine congrArg _ ?_
    exact chunksOfGo_fuel_irrel n hn xs.length ((x :: xs).drop n).length _
      (by simp [List.length_drop]; omega) (le_refl _)

theorem join_chunksOf (n : Nat) (hn : n ≠ 0) (l : List α) :
    (chunksOf n l).flatten = l := by
  have key : ∀ (k : Nat) (l : List α), l.length ≤ k → (chunksOf n l).flatten = l := by
    intro k
    induction k with
    | zero =>
      intro l h
      have : l = [] := List.eq_nil_of_length_eq_zero (Nat.le_zero.mp h)
      subst this; simp
    | succ k ih =>
      intro l h
      by_cases hl : l = []
      · subst hl; simp
      · rw [chunksOf_eq_cons n hn l hl, List.flatten_cons,
          ih (l.drop n) (by
            have := List.length_drop n l
            have hlp : 0 < l.length := List.length_pos.mpr hl
            omega)]
        exact List.take_append_drop n l
  exact key l.length l (le_refl _)

theorem length_chunksOf (n : Nat) (hn : n ≠ 0) :
    ∀ (m : Nat) (l : List α), l.length = m * n → (chunksOf n l).length = m := by
  intro m
  induction m with
  | zero =>
    intro l h
    have : l = [] := List.eq_nil_of_length_eq_zero (by simpa using h)
    subst this; simp
  | succ m ih =>
    intro l h
    rw [Nat.succ_mul] at h
    have hl : l ≠ [] := by
      intro hnil; subst hnil
      simp at h
      omega
    rw [chunksOf_eq_cons n hn l hl, List.length_cons,
      ih (l.drop n) (by simp [List.length_drop]; omega)]

theorem mem_chunksOf_length (n : Nat) (hn : n ≠ 0) :
    ∀ (m : Nat) (l : List α), l.length = m * n →
      ∀ c ∈ chunksOf n l, c.length = n := by
  intro m
  induction m with
  | zero =>
    intro l h c hc
    have : l = [] := List.eq_nil_of_length_eq_zero (by simpa using h)
    subst this; simp at hc
  | succ m ih =>
    intro l h c hc
    rw [Nat.succ_mul] at h
    have hl : l ≠ [] := by
      intro hnil; subst hnil; simp at h; omega
    rw [chunksOf_eq_cons n hn l hl] at hc
    rcases List.mem_cons.mp hc with h1 | h2
    · subst h1
      simp [List.length_take]
      omega
    · exact ih (l.drop n) (by simp [List.length_drop]; omega) c h2

theorem chunksOf_append (n : Nat) (hn : n ≠ 0) :
    ∀ (m : Nat) (l1 l2 : List α), l1.length = m * n →
      chunksOf n (l1 ++ l2) = chunksOf n l1 ++ chunksOf n l2 := by
  intro m
  induction m with
  | zero =>
    intro l1 l2 h
    have : l1 = [] := List.eq_nil_of_length_eq_zero (by simpa using h)
    subst this; simp
  | succ m ih =>
    intro l1 l2 h
    rw [Nat.succ_mul] at h
    have hl1 : l1 ≠ [] := by
      intro hnil; subst hnil; simp at h; omega
    by_cases hl2 : l2 = []
    · subst hl2; simp
    · have hne : l1 ++ l2 ≠ [] := by
        simp [hl1]
      have hn_le : n ≤ l1.length := by omega
      rw [chunksOf_eq_cons n hn (l1 ++ l2) hne, chunksOf_eq_cons n hn l1 hl1]
      rw [List.take_append_of_le_length hn_le, List.drop_append_of_le_length hn_le]
      rw [ih (l1.drop n) l2 (by simp [List.length_drop]; omega)]
      simp

theorem chunksOf_drop_mul (n : Nat) (hn : n ≠ 0) :
    ∀ (j m : Nat) (l : List α), l.length = m * n → j ≤ m →
      chunksOf n (l.drop (j * n)) = (chunksOf n l).drop j := by
  intro j
  induction j with
  | zero => intro m l h _; simp
  | succ j ih =>
    intro m l h hj
    cases m with
    | zero => omega
    | succ m =>
      rw [Nat.succ_mul m n] at h
      have hl : l ≠ [] := by
        intro hnil; subst hnil; simp at h; omega
      rw [chunksOf_eq_cons n hn l hl]
      have harith : (j + 1) * n = j * n + n := by ring
      rw [harith, Nat.add_comm (j * n) n, ← List.drop_drop]
      rw [ih m (l.drop n) (by simp [List.length_drop]; omega) (by omega)]
      simp

theorem chunksOf_take_mul (n : Nat) (hn : n ≠ 0) :
    ∀ (j m : Nat) (l : List α), l.length = m * n → j ≤ m →
      chunksOf n (l.take (j * n)) = (chunksOf n l).take j := by
  intro j
  induction j with
  | zero => intro m l h _; simp
  | succ j ih =>
    intro m l h hj
    cases m with
    | zero => omega
    | succ m =>
      rw [Nat.succ_mul m n] at h
      have hl : l ≠ [] := by
        intro hnil; subst hnil; simp at h; omega
      have hn_le : n ≤ l.length := by omega
      have hlen_take : (l.take n).length = n := by simp [List.length_take]; omega
      have h1 : l.take ((j + 1) * n) = l.take n ++ (l.drop n).take (j * n) := by
        have harith : (j + 1) * n = n + j * n := by ring
        rw [harith, List.take_add]
      rw [h1, chunksOf_append n hn 1 (l.take n) _ (by simpa using hlen_take)]
      have h2 : chunksOf n (l.take n) = [l.take n] := by
        have hne : l.take n ≠ [] := by
          intro hx; rw [hx] at hlen_take; simp at hlen_take; omega
        rw [chunksOf_eq_cons n hn _ hne, List.take_take, Nat.min_self]
        have h3 : (l.take n).drop n = [] := by
          apply List.eq_nil_of_length_eq_zero
          simp [List.length_drop]
        rw [h3]
        simp
      rw [h2, ih m (l.drop n) (by simp [List.length_drop]; omega) (by omega)]
      rw [chunksOf_eq_cons n hn l hl]
      simp

theorem chunksOf_flatten_eq (n : Nat) (hn : n ≠ 0) :
    ∀ (L : List (List α)), (∀ c ∈ L, c.length = n) →
      chunksOf n L.flatten = L := by
  intro L
  induction L with
  | nil => simp
  | cons c L ih =>
    intro hc
    have hcl : c.length = n := hc c (List.mem_cons_self c L)
    have hcn : c ≠ [] := by
      intro hnil; subst hnil; simp at hcl; omega
    have hne : (c :: L).flatten ≠ [] := by
      simp only [List.flatten_cons]
      intro hx
      rcases List.append_eq_nil.mp hx with ⟨h1, _⟩
      exact hcn h1
    rw [List.flatten_cons] at hne ⊢
    rw [chunksOf_eq_cons n hn _ hne]
    rw [← hcl, List.take_left, List.drop_left, hcl]
    rw [ih (fun x hx => hc x (List.mem_cons_of_mem c hx))]

/-- Left rotation of a list by `k` positions; `l.drop k ++ l.take k` is the
net effect of the source's three-reversal step on the flat buffer. -/
def rotL (k : Nat) (l : List α) : List α := l.drop k ++ l.take k

@[simp] theorem rotL_zero (l : List α) : rotL 0 l = l := by simp [rotL]

@[simp] theorem rotL_length (k : Nat) (l : List α) : (rotL k l).length = l.length := by
  simp [rotL, List.length_drop, List.length_take]
  omega

theorem rotL_cancel (a b : Nat) (l : List α) (h : a + b = l.length) :
    rotL b (rotL a l) = l := by
  have hb : b = (l.drop a).length := by
    simp [List.length_drop]
    omega
  simp only [rotL]
  rw [hb, List.drop_left, List.take_left]
  exact List.take_append_drop a l

theorem rotL_map (f : α → β) (k : Nat) (l : List α) :
    (rotL k l).map f = rotL k (l.map f) := by
  simp [rotL, List.map_take, List.map_drop]

theorem reverse_splice_eq_rotL (k : Nat) (l : List α) :
    ((l.take k).reverse ++ (l.drop k).reverse).reverse = rotL k l := by
  simp [rotL]

theorem mem_rotL (j : Nat) (L : List α) (c : α) (hc : c ∈ rotL j L) : c ∈ L := by
  simp only [rotL, List.mem_append] at hc
  rcases hc with h | h
  · exact List.drop_subset j L h
  · exact List.take_subset j L h

theorem chunksOf_rotL (n : Nat) (hn : n ≠ 0) (m j : Nat) (l : List α)
    (hlen : l.length = m * n) (hj : j ≤ m) :
    chunksOf n (rotL (j * n) l) = rotL j (chunksOf n l) := by
  simp only [rotL]
  rw [chunksOf_append n hn (m - j) (l.drop (j * n)) _
    (by rw [List.length_drop, Nat.sub_mul]; omega)]
  rw [chunksOf_drop_mul n hn j m l hlen hj, chunksOf_take_mul n hn j m l hlen hj]

theorem prod_ne_zero_of_not_mem (l : List Nat) (h : 0 ∉ l) : l.prod ≠ 0 := by
  intro hz
  exact h ((List.prod_eq_zero_iff).mp hz)

/-- Translation of the free function `rotate(by, shape, data)`: for the
leading axis, compute `mid = (row_count + offset).rem_euclid(row_count)`,
apply the three-reversal rotation to the flat buffer (reverse the left
split, reverse the right split, reverse the whole), then recurse into each
`row_len` cell with the remaining offsets and shape.  The shape argument
comes first here so that the recursion is structural on it. -/
def rotateFn : List Nat → List Int → List α → List α
  | _, [], data => data
  | [], _ :: _, data => data
  | rc :: sr, o :: orest, data =>
    if rc = 0 then data
    else
      let rowLen := sr.prod
      let mid := (((rc : Int) + o) % rc).toNat
      let d := ((data.take (mid * rowLen)).reverse ++ (data.drop (mid * rowLen)).reverse).reverse
      if orest = [] ∨ sr = [] then d
      else ((chunksOf rowLen d).map (fun cell => rotateFn sr orest cell)).flatten

@[simp] theorem rotateFn_nil_offs (shape : List Nat) (data : List α) :
    rotateFn shape [] data = data := by
  cases shape <;> rfl

@[simp] theorem rotateFn_nil_shape (offs : List Int) (data : List α) :
    rotateFn [] offs data = data := by
  cases offs <;> rfl

theorem rotateFn_cons (rc : Nat) (sr : List Nat) (o : Int) (orest : List Int)
    (data : List α) (h : rc ≠ 0) :
    rotateFn (rc :: sr) (o :: orest) data =
      (if orest = [] ∨ sr = [] then
        rotL ((((rc : Int) + o) % rc).toNat * sr.prod) data
      else
        ((chunksOf sr.prod (rotL ((((rc : Int) + o) % rc).toNat * sr.prod) data)).map
          (fun cell => rotateFn sr orest cell)).flatten) := by
  show (if rc = 0 then data else _) = _
  rw [if_neg h]
  simp only [reverse_splice_eq_rotL]

theorem rotateFn_length (shape : List Nat) :
    ∀ (offs : List Int) (data : List α), 0 ∉ shape →
      (rotateFn shape offs data).length = data.length := by
  induction shape with
  | nil => intro offs data _; simp
  | cons rc sr ih =>
    intro offs data hz
    cases offs with
    | nil => simp
    | cons o orest =>
      have hrc : rc ≠ 0 := by
        intro h; exact hz (h ▸ List.mem_cons_self rc sr)
      have hzs : 0 ∉ sr := fun h => hz (List.mem_cons_of_mem rc h)
      have hrl : sr.prod ≠ 0 := prod_ne_zero_of_not_mem sr hzs
      rw [rotateFn_cons rc sr o orest data hrc]
      by_cases hbr : orest = [] ∨ sr = []
      · rw [if_pos hbr]; simp
      · rw [if_neg hbr]
        rw [List.length_flatten, List.map_map]
        have hmap : ∀ c ∈ chunksOf sr.prod (rotL ((((rc : Int) + o) % rc).toNat * sr.prod) data),
            (List.length ∘ fun cell => rotateFn sr orest cell) c = List.length c := by
          intro c _
          exact ih orest c hzs
        rw [List.map_congr_left hmap]
        have := join_chunksOf sr.prod hrl (rotL ((((rc : Int) + o) % rc).toNat * sr.prod) data)
        calc (List.map List.length (chunksOf sr.prod (rotL ((((rc : Int) + o) % rc).toNat * sr.prod) data))).sum
            = (chunksOf sr.prod (rotL ((((rc : Int) + o) % rc).toNat * sr.prod) data)).flatten.length := by
              rw [List.length_flatten]
          _ = data.length := by rw [this]; simp

theorem flatten_map_length_const (g : List α → List β) (p : Nat) :
    ∀ (L : List (List α)), (∀ c ∈ L, (g c).length = p) →
      ((L.map g).flatten).length = L.length * p := by
  intro L
  induction L with
  | nil => intro _; simp
  | cons c L ih =>
    intro h
    simp only [List.map_cons, List.flatten_cons, List.length_append, List.length_cons]
    rw [h c (List.mem_cons_self c L), ih (fun x hx => h x (List.mem_cons_of_mem c hx)),
      Nat.succ_mul]
    omega

theorem rotate_mid_sum (rc : Nat) (hrc : rc ≠ 0) (o : Int) :
    ((((rc : Int) + o) % rc).toNat = 0 ∧ (((rc : Int) + -o) % rc).toNat = 0) ∨
    ((((rc : Int) + o) % rc).toNat + (((rc : Int) + -o) % rc).toNat = rc) := by
  have hrcz : (0 : Int) < rc := by exact_mod_cast Nat.pos_of_ne_zero hrc
  have hne : (rc : Int) ≠ 0 := ne_of_gt hrcz
  have h1 : ((rc : Int) + o) % (rc : Int) = o % (rc : Int) := by
    rw [Int.add_emod, Int.emod_self, Int.zero_add, Int.emod_emod_of_dvd o dvd_rfl]
  have h2 : ((rc : Int) + -o) % (rc : Int) = (-o) % (rc : Int) := by
    rw [Int.add_emod, Int.emod_self, Int.zero_add, Int.emod_emod_of_dvd _ dvd_rfl]
  have hr0 : 0 ≤ o % (rc : Int) := Int.emod_nonneg o hne
  have hrlt : o % (rc : Int) < rc := Int.emod_lt_of_pos o hrcz
  have hdiv := Int.ediv_add_emod o rc
  have hoeq : -o = ((rc : Int) - o % (rc : Int)) + rc * (-(o / rc) - 1) := by
    linear_combination hdiv
  have h3 : (-o) % (rc : Int) = ((rc : Int) - o % (rc : Int)) % (rc : Int) := by
    conv_lhs => rw [hoeq]
    rw [Int.add_mul_emod_self_left]
  by_cases hz : o % (rc : Int) = 0
  · left
    constructor
    · rw [h1, hz]; rfl
    · rw [h2, h3, hz, sub_zero, Int.emod_self]; rfl
  · right
    have h4 : ((rc : Int) - o % (rc : Int)) % (rc : Int) = rc - o % (rc : Int) :=
      Int.emod_eq_of_lt (by omega) (by omega)
    rw [h1, h2, h3, h4]
    omega

theorem rotateFn_involution (shape : List Nat) :
    ∀ (offs : List Int) (data : List α), 0 ∉ shape → data.length = shape.prod →
      rotateFn shape (offs.map (fun x => -x)) (rotateFn shape offs data) = data := by
  induction shape with
  | nil => intro offs data _ _; simp
  | cons rc sr ih =>
    intro offs data hz hlen
    cases offs with
    | nil => simp
    | cons o orest =>
      have hrc : rc ≠ 0 := fun h => hz (h ▸ List.mem_cons_self rc sr)
      have hzs : 0 ∉ sr := fun h => hz (List.mem_cons_of_mem rc h)
      have hrl : sr.prod ≠ 0 := prod_ne_zero_of_not_mem sr hzs
      have hlen' : data.length = rc * sr.prod := by rw [hlen, List.prod_cons]
      have hrcz : (0 : Int) < rc := by exact_mod_cast Nat.pos_of_ne_zero hrc
      have hm1lt : ((((rc : Int) + o) % rc).toNat) < rc := by
        have ha := Int.emod_lt_of_pos ((rc : Int) + o) hrcz
        have hb := Int.emod_nonneg ((rc : Int) + o) (ne_of_gt hrcz)
        omega
      have hm2lt : ((((rc : Int) + -o) % rc).toNat) < rc := by
        have ha := Int.emod_lt_of_pos ((rc : Int) + -o) hrcz
        have hb := Int.emod_nonneg ((rc : Int) + -o) (ne_of_gt hrcz)
        omega
      simp only [List.map_cons]
      rw [rotateFn_cons rc sr o orest data hrc]
      by_cases hbr : orest = [] ∨ sr = []
      · rw [if_pos hbr]
        have hbr2 : orest.map (fun x => -x) = [] ∨ sr = [] := by
          rcases hbr with h | h
          · left; rw [h]; rfl
          · right; exact h
        rw [rotateFn_cons rc sr (-o) (orest.map (fun x => -x)) _ hrc, if_pos hbr2]
        rcases rotate_mid_sum rc hrc o with ⟨hz1, hz2⟩ | hsum
        · rw [hz1, hz2]; simp
        · apply rotL_cancel
          rw [hlen', ← Nat.add_mul, hsum]
      · rw [if_neg hbr]
        have hbr2 : ¬(orest.map (fun x => -x) = [] ∨ sr = []) := by
          intro hx
          rcases hx with h | h
          · exact hbr (Or.inl (List.map_eq_nil_iff.mp h))
          · exact hbr (Or.inr h)
        rw [rotateFn_cons rc sr (-o) (orest.map (fun x => -x)) _ hrc, if_neg hbr2]
        set p := sr.prod with hp
        set C := chunksOf p data with hCdef
        set m1 := ((((rc : Int) + o) % rc).toNat) with hm1def
        set m2 := ((((rc : Int) + -o) % rc).toNat) with hm2def
        set g := fun cell => rotateFn sr orest (cell : List α) with hgdef
        set g2 := fun cell => rotateFn sr (orest.map (fun x => -x)) (cell : List α) with hg2def
        have hstep1 : chunksOf p (rotL (m1 * p) data) = rotL m1 C :=
          chunksOf_rotL p hrl rc m1 data hlen' (le_of_lt hm1lt)
        rw [hstep1]
        have hcells : ∀ c ∈ rotL m1 C, c.length = p := fun c hc =>
          mem_chunksOf_length p hrl rc data hlen' c (mem_rotL m1 C c hc)
        have hgcells : ∀ d ∈ (rotL m1 C).map g, d.length = p := by
          intro d hd
          rcases List.mem_map.mp hd with ⟨c, hc, hgc⟩
          rw [← hgc, hgdef]
          rw [rotateFn_length sr orest c hzs]
          exact hcells c hc
        have hX : (((rotL m1 C).map g).flatten).length = rc * p := by
          rw [flatten_map_length_const g p (rotL m1 C) (fun c hc => by
            rw [hgdef, rotateFn_length sr orest c hzs]; exact hcells c hc)]
          rw [rotL_length, hCdef, length_chunksOf p hrl rc data hlen']
        have hstep2 : chunksOf p (rotL (m2 * p) ((rotL m1 C).map g).flatten) =
            rotL m2 (chunksOf p ((rotL m1 C).map g).flatten) :=
          chunksOf_rotL p hrl rc m2 _ hX (le_of_lt hm2lt)
        rw [hstep2]
        have hstep3 : chunksOf p ((rotL m1 C).map g).flatten = (rotL m1 C).map g :=
          chunksOf_flatten_eq p hrl _ hgcells
        rw [hstep3]
        rw [← rotL_map g m2 (rotL m1 C)]
        have hstep4 : rotL m2 (rotL m1 C) = C := by
          rcases rotate_mid_sum rc hrc o with ⟨hz1, hz2⟩ | hsum
          · have hz1' : m1 = 0 := hz1
            have hz2' : m2 = 0 := hz2
            rw [hz1', hz2']; simp
          · apply rotL_cancel
            rw [hCdef, length_chunksOf p hrl rc data hlen']
            exact hsum
        rw [hstep4]
        rw [List.map_map]
        have hstep5 : C.map (g2 ∘ g) = C.map id := by
          apply List.map_congr_left
          intro c hc
          have hcl : c.length = p :=
            mem_chunksOf_length p hrl rc data hlen' c hc
          show g2 (g c) = c
          rw [hgdef, hg2def]
          exact ih orest c hzs (by rw [hcl, hp])
        rw [hstep5, List.map_id, hCdef, join_chunksOf p hrl data]

/-- Translation of `fill_shift(by, shape, data, fill)`: after the cyclic
rotation, overwrite the wrapped-in region (the `|offset| * row_len`
elements at the trailing end for a positive offset, at the leading end for
a negative one) with the fill value, then recurse into each cell.  As in
`rotateFn`, the shape argument comes first so the recursion is structural. -/
def fillShift : List Nat → List Int → List α → α → List α
  | _, [], data, _ => data
  | [], _ :: _, data, _ => data
  | rc :: sr, o :: orest, data, fill =>
    if rc = 0 then data
    else
      let rowLen := sr.prod
      let d :=
        if o ≠ 0 then
          let absOff := o.natAbs * rowLen
          if 0 < o then
            data.take (data.length - absOff) ++ List.replicate (min absOff data.length) fill
          else
            List.replicate (min absOff data.length) fill ++ data.drop absOff
        else data
      if orest = [] ∨ sr = [] then d
      else ((chunksOf rowLen d).map (fun cell => fillShift sr orest cell fill)).flatten

/-- `Array::rotate` forwards to `rotate_depth(by, 0, 0)`.  At depth 0,
`depth_slices` clamps both depths to 0, the (empty) shape prefixes always
match, no broadcasting happens, and the per-row closure runs once on the
whole buffers — unless either operand has a zero element count, in which
case `depth_slices` short-circuits to `Ok` without running the closure.
The closure rejects an offsets array of rank above 1, then rejects more
offsets than the slice's rank (`ash.len()`), then performs the cyclic
rotation and, when a fill value is in scope, the fill shift.  (Map-key and
meta-flag bookkeeping is not modelled: the model has no side tables.) -/
def rotateDepth0 (a : Arr α) (offsArr : Arr Int) (fill : Option α) : Except String (Arr α) :=
  if a.shape.prod = 0 ∨ offsArr.shape.prod = 0 then .ok a
  else if offsArr.shape.length > 1 then
    .error "Cannot rotate by rank above 1 array"
  else if offsArr.data.length > a.shape.length then
    .error "Cannot rotate array with index longer than its rank"
  else
    let d := rotateFn a.shape offsArr.data a.data
    .ok { a with data :=
      match fill with
      | some f => fillShift a.shape offsArr.data d f
      | none => d }

/-- Modelled from the spec: `Shape::flat_to_dims` (defined outside the
provided file) decomposes a flat row-major index into per-axis indices by
peeling digits from the last (fastest-varying) axis; this worker consumes
the reversed shape. -/
def flatToDimsRev : List Nat → Nat → List Nat
  | [], _ => []
  | d :: rest, i => (i % d) :: flatToDimsRev rest (i / d)

/-- Modelled from the spec: row-major flat index to multi-index. -/
def flatToDims (shape : List Nat) (i : Nat) : List Nat :=
  (flatToDimsRev shape.reverse i).reverse

/-- Modelled from the spec: `Shape::dims_to_flat` flattens a multi-index
in row-major order, returning `none` when any index is outside its axis. -/
def dimsToFlat (shape ix : List Nat) : Option Nat :=
  (shape.zip ix).foldl
    (fun acc p => acc.bind (fun f => if p.2 < p.1 then some (f * p.1 + p.2) else none))
    (some 0)

/-- The stride accumulation of `find`'s inner walk: iterate
index/dimension pairs from the last axis, adding `index * stride` while
multiplying the stride by each dimension. -/
def strideIdx (ix shape : List Nat) : Nat :=
  (((ix.zip shape).reverse).foldl (fun acc p => (acc.1 + p.1 * acc.2, acc.2 * p.2)) (0, 1)).1

/-- Modelled from the spec: `fill_to_shape` (defined outside the provided
file) pads an array to a target shape of the same rank; elements keep
their multi-indices and every new position holds the fill value ("Output
is padded back to the haystack's leading-axes shape"). -/
def fillToShape (target : List Nat) (v : α) (a : Arr α) : Arr α :=
  ⟨target, (List.range target.prod).map (fun k =>
    let ix := flatToDims target k
    if ix.length = a.shape.length ∧ ((ix.zip a.shape).all (fun p => decide (p.1 < p.2))) then
      match a.data.get? (strideIdx ix a.shape) with
      | some x => x
      | none => v
    else v)⟩

/-- The main corner/cursor walk of `Array::find` (after any fill
handling): pad the needle shape with leading 1s, compute the pre-padded
output shape `searched - needle + 1` per axis, and mark each corner whose
window matches the needle element-for-element.  The walk only runs when
every searched dimension is positive; corners are visited in row-major
order, which is the flat order over the pre-padded output shape.  The
source's inner item loop is do-while style (it always runs at least once),
hence `max 1 items`.  The result is padded back to the searched array's
leading-axes shape with zeros. -/
def findMain [DecidableEq α] (needle searched : Arr α) : Arr Nat :=
  let fShape := List.replicate (searched.rank - needle.rank) 1 ++ needle.shape
  let tempShape := List.zipWith (fun s f => s + 1 - f) searched.shape fShape
  let total := tempShape.prod
  let items := fShape.prod
  let data :=
    if searched.shape.all (fun d => decide (0 < d)) then
      (List.range total).map (fun c =>
        let corner := flatToDims tempShape c
        if (List.range (max 1 items)).all (fun j =>
            let curr := flatToDims fShape j
            let sIdx := strideIdx (List.zipWith (fun x y => x + y) corner curr) searched.shape
            match needle.data.get? (strideIdx curr fShape), searched.data.get? sIdx with
            | some x, some y => x == y
            | _, _ => false)
        then 1 else 0)
    else List.replicate total 0
  fillToShape (searched.shape.take fShape.length) 0 ⟨tempShape, data⟩

/-- Translation of `Array::find` (always `Ok` in the source): if the
needle outranks the searched array or some trailing dimension of the
needle exceeds the matching one of the searched array, then with a fill
value the searched array is first padded (its leading axis set to the
needle's row count), and without one the result is an all-zero boolean
array of the searched array's full shape; otherwise the main walk runs
directly. -/
def find [DecidableEq α] (needle searched : Arr α) (fill : Option α) : Arr Nat :=
  if needle.rank > searched.rank ∨
      ((needle.shape.reverse).zip (searched.shape.reverse)).any
        (fun p => decide (p.2 < p.1)) then
    match fill with
    | some f =>
      findMain needle (fillToShape (searched.shape.set 0 needle.rowCount) f searched)
    | none => ⟨searched.shape, List.replicate searched.data.length 0⟩
  else findMain needle searched

/-- Translation of `Array::mask`: an oversized-rank needle is an error; a
needle with some trailing dimension larger than the haystack's matching
one yields an all-zero array of the haystack's shape (note: the source
never consults the execution context's fill value here, so the `fill`
argument — standing for the fill state of the `env` parameter — is
ignored).  Otherwise matches are labelled 1..N in row-major discovery
order, a cell participating in at most one match (`res[k] > 0` disquali-
fies).  The source's `f64` labels are whole numbers (match counters), so
they are modelled as `Nat`; the final `Value::compress` only shrinks the
element representation and does not change values. -/
def mask [DecidableEq α] (needle haystack : Arr α) (_fill : Option α) : Except String (Arr Nat) :=
  if needle.rank > haystack.rank then
    .error "Cannot look for rank above rank array"
  else if ((needle.shape.reverse).zip (haystack.shape.reverse)).any
      (fun p => decide (p.2 < p.1)) then
    .ok ⟨haystack.shape, List.replicate haystack.data.length 0⟩
  else
    let needleShapeP := List.replicate (haystack.rank - needle.rank) 1 ++ needle.shape
    let needleElems := needle.data.length
    let resLen := haystack.data.length
    let step := fun (st : List Nat × Nat) (i : Nat) =>
      let curr := flatToDims haystack.shape i
      let isMatch := (List.range needleElems).all (fun j =>
        let off := flatToDims needleShapeP j
        let sum := List.zipWith (fun x y => x + y) curr off
        match dimsToFlat haystack.shape sum with
        | none => false
        | some k =>
          decide (st.1.getD k 0 = 0) &&
            (match needle.data.get? j, haystack.data.get? k with
             | some x, some y => x == y
             | _, _ => false))
      if isMatch then
        ((List.range needleElems).foldl (fun r j =>
          let off := flatToDims needleShapeP j
          let sum := List.zipWith (fun x y => x + y) curr off
          r.set ((dimsToFlat haystack.shape sum).getD 0) (st.2 + 1)) st.1,
         st.2 + 1)
      else st
    .ok ⟨haystack.shape, ((List.range resLen).foldl step (List.replicate resLen 0, 0)).1⟩

/-- The `Ordering::Equal` arm of `Array::member`: collect the haystack's
row slices into a hash set (modelled as list membership under slice
equality) and emit one boolean per needle row; the result's shape is the
needle shape's first axis. -/
def memberEqRank [DecidableEq α] (elems of : Arr α) : Arr Nat :=
  ⟨elems.shape.take 1, elems.rowSlicesL.map (fun r => if r ∈ of.rowSlicesL then 1 else 0)⟩

/-- The `Ordering::Equal` arm of `Array::index_of`: a first-seen-index map
over the haystack's row slices (`entry().or_insert(i)` keeps the first
index, modelled by `findIdx`, which returns the list length — exactly
`haystack.row_count()`, the source's `unwrap_or` sentinel — when the row
is absent).  The source's `f64` indices are whole numbers, modelled as
`Nat`. -/
def indexOfEqRank [DecidableEq α] (needle haystack : Arr α) : Arr Nat :=
  ⟨needle.shape.take 1,
   needle.rowSlicesL.map (fun r => haystack.rowSlicesL.findIdx (fun s => s == r))⟩

/-- A reshape dimension specifier (`Result<isize, bool>` in the source):
either a concrete signed integer or the infinity placeholder carrying its
reverse sign. -/
inductive ShapeDim where
  | int (n : Int)
  | infinite (rev : Bool)
deriving DecidableEq, Repr

/-- Whether a specifier is the infinity placeholder (`is_err`). -/
def ShapeDim.isInf : ShapeDim → Bool
  | .int _ => false
  | .infinite _ => true

/-- The concrete integers of a specifier list (`iter().flatten()`). -/
def intsOf (dims : List ShapeDim) : List Int :=
  dims.filterMap (fun d => match d with | .int n => some n | .infinite _ => none)

/-- The magnitude of a specifier (used to state element-count claims). -/
def dimMagnitude : ShapeDim → Nat
  | .int n => n.natAbs
  | .infinite _ => 0

/-- Translation of `derive_shape`: zero placeholders pass the specifiers
through; exactly one placeholder is solved — three code paths for a
leading, trailing or middle placeholder, each rejecting a zero product of
the other specifiers — and two or more placeholders are an error.  The
quotient is `ceil` with a fill value in scope and `floor` without; the
source computes it through `f32` division (`data_len as f32 / other_len
as f32` with `f32::ceil`/`f32::floor`), modelled here by exact natural
ceiling/floor division, which agrees wherever the `f32` computation is
exact.  The leading path's `product::<isize>() as usize` wrapping cast is
modelled by `emod 2^64`; the other two paths use `unsigned_abs`. -/
def deriveShape (shape : List Nat) (dims : List ShapeDim) (hasFill : Bool) :
    Except String (List Int) :=
  let infCount := (dims.filter ShapeDim.isInf).length
  let deriveLen := fun (dataLen otherLen : Nat) =>
    (if hasFill then (dataLen + otherLen - 1) / otherLen else dataLen / otherLen : Nat)
  if infCount = 0 then
    .ok (dims.map (fun d => match d with | .int n => n | .infinite _ => 0))
  else if infCount = 1 then
    match dims with
    | .infinite rev :: rest =>
      let revMul : Int := if rev then -1 else 1
      if (rest.filter ShapeDim.isInf).length ≠ 0 then
        .error "Cannot reshape array with multiple infinite dimensions"
      else
        let shapeNonLeadingLen : Nat := (((intsOf rest).prod) % ((2 : Int) ^ 64)).toNat
        if shapeNonLeadingLen = 0 then
          .error "Cannot reshape array with any 0 non-leading dimensions"
        else
          .ok (revMul * (deriveLen shape.prod shapeNonLeadingLen : Int) :: intsOf rest)
    | _ =>
      match dims.getLast? with
      | some (.infinite rev) =>
        let revMul : Int := if rev then -1 else 1
        let axes := intsOf dims
        let shapeNonTrailingLen := (axes.prod).natAbs
        if shapeNonTrailingLen = 0 then
          .error "Cannot reshape array with any 0 non-trailing dimensions"
        else
          .ok (axes ++ [revMul * (deriveLen shape.prod shapeNonTrailingLen : Int)])
      | _ =>
        let infIndex := dims.findIdx ShapeDim.isInf
        let front := dims.take infIndex
        let back := dims.drop (infIndex + 1)
        let rev := match dims.get? infIndex with
          | some (.infinite r) => r
          | _ => false
        let revMul : Int := if rev then -1 else 1
        let frontLen := ((intsOf front).prod).natAbs
        let backLen := ((intsOf back).prod).natAbs
        if frontLen = 0 ∨ backLen = 0 then
          .error "Cannot reshape array with any 0 outer dimensions"
        else
          .ok (intsOf front ++
            (revMul * (deriveLen shape.prod (frontLen * backLen) : Int)) :: intsOf back)
  else
    .error "Cannot reshape array with multiple infinite dimensions"

/-- Modelled from the spec: `reverse_depth s` (defined outside the
provided file) reverses the array along axis `s` — within each block of
`product(shape[s..])` elements, the `shape[s]` sub-cells of
`product(shape[s+1..])` elements each appear in reverse order. -/
def reverseDepth (s : Nat) (a : Arr α) : Arr α :=
  let seg := (a.shape.drop s).prod
  let sub := (a.shape.drop (s + 1)).prod
  { a with data :=
      ((chunksOf seg a.data).map (fun block => ((chunksOf sub block).reverse).flatten)).flatten }

/-- Translation of `Array::reshape` (list form): derive the target axes,
record which specifiers were negative, take magnitudes as the new shape
(`validate_size` is modelled from the spec as the unbounded element
count), then truncate the data or extend it — with the fill value if one
is in scope; otherwise an empty array errors unless the target has a zero
axis, a scalar is broadcast, and any other array is repeated cyclically —
and finally reverse along every axis whose specifier was negative.
(Map-key bookkeeping is not modelled: the model has no side tables.) -/
def reshape (dims : List ShapeDim) (fill : Option α) (a : Arr α) :
    Except String (Arr α) :=
  match deriveShape a.shape dims fill.isSome with
  | .error e => .error e
  | .ok axes =>
    let reversedAxes := (List.range axes.length).filter (fun i => decide (axes.getD i 0 < 0))
    let shape2 := axes.map Int.natAbs
    let targetLen := shape2.prod
    let finish := fun (d : List α) =>
      reversedAxes.foldl (fun arr s => reverseDepth s arr) (⟨shape2, d⟩ : Arr α)
    if a.data.length < targetLen then
      match fill with
      | some f => .ok (finish (a.data ++ List.replicate (targetLen - a.data.length) f))
      | none =>
        if a.data.isEmpty then
          if ¬ shape2.contains 0 then
            .error "Cannot reshape empty array without a fill value"
          else .ok (finish a.data)
        else if a.rank = 0 then
          .ok (finish (match a.data with
            | [] => []
            | x :: _ => List.replicate targetLen x))
        else
          let start := a.data.length
          let additional := targetLen - start
          .ok (finish (a.data ++ (List.replicate (additional / start) a.data).flatten ++
            a.data.take (additional % start)))
    else .ok (finish (a.data.take targetLen))

/-- Translation of `Value::undo_reshape` (the old shape is the list of
naturals the source parses; the source's separate rejection of a scalar
old-shape argument happens before this computation): a pure shape
relabelling when the element counts match, a hard error otherwise. -/
def undo_reshape (origShape : List Nat) (a : Arr α) : Except String (Arr α) :=
  if origShape.prod = a.shape.prod then .ok { a with shape := origShape }
  else .error "Cannot unreshape array because the element counts differ"

/-- The shape `Value::undo_rerank` reconstructs from the rerank parameter
and the remembered original shape (the positive- and negative-rank arms of
the source; Rust's saturating subtraction is `Nat` subtraction). -/
def undoRerankShape (rank : Int) (origShape curShape : List Nat) : List Nat :=
  let r := rank.natAbs
  if 0 ≤ rank then
    origShape.take (origShape.length - r) ++
      curShape.drop (max ((r + 1) - origShape.length) 1)
  else
    origShape.take r ++ curShape.drop 1

/-- Translation of `Value::undo_rerank` for a non-boxed array (the source
recurses into a rank-0 box; a rank-0 non-box returns unchanged):
reconstruct a shape and silently no-op — `return Ok(())` with the array
untouched — when its element count (the result of the spec-modelled,
infallible `validate_size`) differs from the current element count. -/
def undo_rerank (rank : Int) (origShape : List Nat) (a : Arr α) : Except String (Arr α) :=
  if a.rank = 0 then .ok a
  else
    let newShape := undoRerankShape rank origShape a.shape
    if newShape.prod ≠ a.data.length then .ok a
    else .ok { a with shape := newShape }

/-- The outcome of a Rust call in a model that must distinguish panics
(`todo!()`/`unreachable`) from returned errors. -/
inductive ROut (α : Type) where
  | ok (a : α)
  | err (msg : String)
  | panicked (msg : String)
deriving DecidableEq, Repr

/-- Sequence a list of outcomes, propagating the first error or panic (the
behaviour of the source's `?` operator inside its row loops). -/
def routSeq : List (ROut β) → ROut (List β)
  | [] => .ok []
  | r :: rest =>
    match r with
    | .ok v =>
      match routSeq rest with
      | .ok vs => .ok (v :: vs)
      | .err e => .err e
      | .panicked p => .panicked p
    | .err e => .err e
    | .panicked p => .panicked p

/-- Modelled from the spec: `Array::from_row_arrays` (defined outside the
provided file) stacks equal-shaped rows into an array with a new leading
axis. -/
def fromRowArrays (rowArrs : List (Arr β)) : Except String (Arr β) :=
  match rowArrs with
  | [] => .ok ⟨[0], []⟩
  | r :: rest =>
    if rest.all (fun x => decide (x.shape = r.shape)) then
      .ok ⟨(r :: rest).length :: r.shape, ((r :: rest).map Arr.data).flatten⟩
    else .error "Cannot combine arrays with different shapes"

/-- Translation of `Array::coordinate`, with a recursion bound: the
`Ordering::Greater` arm recurses into needle rows, which strictly lowers
the needle's rank, so `needle.rank + 1` fuel always suffices and the
out-of-fuel branch is unreachable.  At equal rank it is a first-seen
index lookup (like `index_of`) whose result gains a trailing axis of 1.
Below the haystack's rank, after the suffix-shape check, the source
computes `haystack_item_len` as the product of the haystack's trailing
`needle.rank()` dimensions and — when that product is zero — hits a
literal `todo!()`, i.e. panics; otherwise it searches the exact chunks of
that length and converts the flat position back to a coordinate (the
outer shape itself when absent), a scalar when the coordinate has one
axis.  `f64` results hold whole-number indices, modelled as `Nat`. -/
def coordinateGo [DecidableEq α] : Nat → Arr α → Arr α → ROut (Arr Nat)
  | 0, _, _ => .panicked "recursion bound exhausted"
  | fuel + 1, needle, haystack =>
    match compare needle.rank haystack.rank with
    | .eq =>
      let hayRows := haystack.rowSlicesL
      let data := needle.rowSlicesL.map (fun r => hayRows.findIdx (fun s => s == r))
      .ok ⟨needle.shape.take 1 ++ [1], data⟩
    | .gt =>
      match routSeq (needle.rows.map (fun r => coordinateGo fuel r haystack)) with
      | .ok rs =>
        match fromRowArrays rs with
        | .ok arr => .ok arr
        | .error e => .err e
      | .err e => .err e
      | .panicked p => .panicked p
    | .lt =>
      if needle.shape.isSuffixOf haystack.shape then
        let itemLen := ((haystack.shape.reverse).take needle.rank).prod
        if itemLen = 0 then .panicked "not yet implemented"
        else
          let outerShape := haystack.shape.take (haystack.rank - needle.rank)
          let index :=
            match (chunksExact itemLen haystack.data).findIdx?
                (fun ch => (ch.zip needle.data).all (fun p => p.1 == p.2)) with
            | some raw => flatToDims outerShape raw
            | none => outerShape
          if index.length = 1 then .ok ⟨[], index⟩
          else .ok ⟨[index.length], index⟩
      else .err "Cannot get coordinate of array in array of incompatible shape"

/-- `Array::coordinate` at its entry point. -/
def coordinate [DecidableEq α] (needle haystack : Arr α) : ROut (Arr Nat) :=
  coordinateGo (needle.rank + 1) needle haystack

theorem findIdx_beq_lt_length_iff_mem [BEq β] [LawfulBEq β] (l : List β) (r : β) :
    l.findIdx (fun s => s == r) < l.length ↔ r ∈ l := by
  induction l with
  | nil => simp
  | cons x xs ih =>
    rw [List.findIdx_cons]
    by_cases hx : x = r
    · subst hx
      simp
    · have hb : (x == r) = false := beq_eq_false_iff_ne.mpr hx
      rw [hb]
      simp only [cond_false, List.length_cons, List.mem_cons]
      constructor
      · intro h
        exact Or.inr (ih.mp (by omega))
      · intro h
        rcases h with h | h
        · exact absurd h.symm hx
        · have := ih.mpr h
          omega

/-- C8: at equal rank, `member(needle, haystack)[i]` is 1 exactly when
`index_of(needle, haystack)[i]` is strictly below `haystack.row_count()`;
equivalently, `index_of` returns the sentinel `row_count` exactly on the
rows `member` reports absent.  (Out-of-range positions read the operator
defaults, for which both sides are false.) -/
theorem c8_member_indexof {α : Type} [DecidableEq α] (needle haystack : Arr α)
    (hrank : needle.rank = haystack.rank) (i : Nat) :
    (memberEqRank needle haystack).data.getD i 0 = 1 ↔
      (indexOfEqRank needle haystack).data.getD i haystack.rowCount <
        haystack.rowCount := by
  clear hrank
  have hlen : haystack.rowSlicesL.length = haystack.rowCount := by
    simp [Arr.rowSlicesL]
  show (needle.rowSlicesL.map (fun r => if r ∈ haystack.rowSlicesL then 1 else 0)).getD i 0 = 1 ↔
      (needle.rowSlicesL.map
        (fun r => haystack.rowSlicesL.findIdx (fun s => s == r))).getD i haystack.rowCount <
        haystack.rowCount
  show ((needle.rowSlicesL.map (fun r => if r ∈ haystack.rowSlicesL then 1 else 0)).get? i).getD 0 = 1 ↔
      ((needle.rowSlicesL.map
        (fun r => haystack.rowSlicesL.findIdx (fun s => s == r))).get? i).getD haystack.rowCount <
        haystack.rowCount
  rw [List.get?_map, List.get?_map]
  rcases Nat.lt_or_ge i needle.rowSlicesL.length with hi | hi
  · rw [List.get?_eq_get hi]
    simp only [Option.map_some', Option.getD_some]
    set r := needle.rowSlicesL.get ⟨i, hi⟩
    rw [← hlen]
    constructor
    · intro h
      apply (findIdx_beq_lt_length_iff_mem haystack.rowSlicesL r).mpr
      by_contra hmem
      rw [if_neg hmem] at h
      exact absurd h (by omega)
    · intro h
      rw [if_pos ((findIdx_beq_lt_length_iff_mem haystack.rowSlicesL r).mp h)]
  · rw [List.get?_len_le hi]
    simp

/-- C8 witness: needle `[5,7]` against haystack `[7,8,9]` at row 1 —
`member` marks 1 and `index_of` returns 0, which is below the row count 3. -/
theorem c8_member_indexof_witness :
    (memberEqRank (⟨[2],[5,7]⟩ : Arr Nat) ⟨[3],[7,8,9]⟩).data.getD 1 0 = 1 ↔
      (indexOfEqRank (⟨[2],[5,7]⟩ : Arr Nat) ⟨[3],[7,8,9]⟩).data.getD 1
        (⟨[3],[7,8,9]⟩ : Arr Nat).rowCount < (⟨[3],[7,8,9]⟩ : Arr Nat).rowCount :=
  c8_member_indexof (⟨[2],[5,7]⟩ : Arr Nat) ⟨[3],[7,8,9]⟩ (by decide) 1

/-- C10: `mask` errors whenever the needle's rank strictly exceeds the
haystack's; and whenever the needle fits rank-wise but some trailing
dimension of the needle exceeds the haystack's matching dimension, `mask`
succeeds with an all-zero array of exactly the haystack's shape — for any
fill state, which `mask` never consults. -/
theorem c10_mask_oversized {α : Type} [DecidableEq α] (needle haystack : Arr α)
    (fill : Option α) :
    (needle.rank > haystack.rank → (mask needle haystack fill).isOk = false) ∧
    (needle.rank ≤ haystack.rank →
      ((needle.shape.reverse).zip (haystack.shape.reverse)).any
        (fun p => decide (p.2 < p.1)) = true →
      mask needle haystack fill =
        .ok ⟨haystack.shape, List.replicate haystack.data.length 0⟩) := by
  constructor
  · intro h
    unfold mask
    rw [if_pos h]
    rfl
  · intro h1 h2
    unfold mask
    rw [if_neg (by omega), if_pos h2]

/-- C10 witness: a rank-2 needle in a rank-1 haystack errors; a needle of
shape `[3]` in a haystack of shape `[2]` yields all zeros of shape `[2]`
even with a fill value in scope. -/
theorem c10_mask_oversized_witness :
    (mask (⟨[1,1],[1]⟩ : Arr Nat) ⟨[2],[1,2]⟩ none).isOk = false ∧
    mask (⟨[3],[1,2,3]⟩ : Arr Nat) ⟨[2],[5,6]⟩ (some 9) =
      .ok ⟨[2], List.replicate 2 0⟩ :=
  ⟨(c10_mask_oversized (⟨[1,1],[1]⟩ : Arr Nat) ⟨[2],[1,2]⟩ none).1 (by decide),
   (c10_mask_oversized (⟨[3],[1,2,3]⟩ : Arr Nat) ⟨[2],[5,6]⟩ (some 9)).2
     (by decide) (by decide)⟩

/-- C6: for an array with no zero-length axes, cyclically rotating by an
offset vector and then by its elementwise negation (over the same axes)
restores the data exactly; the shape is untouched by `rotate`. -/
theorem c6_rotate_involution {α : Type} (shape : List Nat) (offs : List Int)
    (data : List α) (hax : 0 ∉ shape) (hinv : data.length = shape.prod) :
    rotateFn shape (offs.map (fun x => -x)) (rotateFn shape offs data) = data :=
  rotateFn_involution shape offs data hax hinv

/-- C6 witness: rotating `[10,20,30,40,50]` by 2 and then by -2 restores
the original list. -/
theorem c6_rotate_involution_witness :
    rotateFn [5] ([2].map (fun x => -x)) (rotateFn [5] [2] ([10,20,30,40,50] : List Nat)) =
      [10,20,30,40,50] :=
  c6_rotate_involution [5] [2] ([10,20,30,40,50] : List Nat) (by decide) (by decide)

/-- C7 (amended): for nonempty operands and a rank-at-most-1 offsets
array, `rotate` (that is, `rotate_depth` at depth 0) succeeds exactly when
the number of offsets is at most the array's rank — the source's check is
`b.len() > ash.len()`, against the number of axes, not against any axis
extent. -/
theorem c7_rotate_offsets {α : Type} (a : Arr α) (b : Arr Int) (fill : Option α)
    (ha : a.shape.prod ≠ 0) (hb : b.shape.prod ≠ 0) (hr : b.shape.length ≤ 1) :
    (rotateDepth0 a b fill).isOk = true ↔ b.data.length ≤ a.shape.length := by
  unfold rotateDepth0
  rw [if_neg (by push_neg; exact ⟨ha, hb⟩), if_neg (by omega)]
  by_cases hc : b.data.length > a.shape.length
  · rw [if_pos hc]
    constructor
    · intro h; simp [Except.isOk, Except.toBool] at h
    · intro h; omega
  · rw [if_neg hc]
    constructor
    · intro _; omega
    · intro _; rfl

/-- C7 counterexample: two offsets for a rank-1 array of extent 5 — the
offset count 2 is at most the axis extent 5, so the claim predicts
success, but the source errors because 2 exceeds the rank 1. -/
theorem c7_rotate_offsets_counterexample :
    (⟨[2],[1,2]⟩ : Arr Int).data.length ≤ (⟨[5],[10,20,30,40,50]⟩ : Arr Nat).shape.headD 1 ∧
    (rotateDepth0 (⟨[5],[10,20,30,40,50]⟩ : Arr Nat) ⟨[2],[1,2]⟩ none).isOk = false :=
  ⟨by decide, by rfl⟩

/-- C7 witness: one offset for a rank-1 array succeeds. -/
theorem c7_rotate_offsets_witness :
    (rotateDepth0 (⟨[5],[10,20,30,40,50]⟩ : Arr Nat) ⟨[1],[2]⟩ none).isOk = true ↔
      (⟨[1],[2]⟩ : Arr Int).data.length ≤ (⟨[5],[10,20,30,40,50]⟩ : Arr Nat).shape.length :=
  c7_rotate_offsets (⟨[5],[10,20,30,40,50]⟩ : Arr Nat) ⟨[1],[2]⟩ none
    (by decide) (by decide) (by decide)

/-- C2 counterexample: with no fill in scope,
`find([1,2], [0,1,2,1,2,0])` does not return the length-5 mask
`[0,1,0,1,0]` — the output is padded back to the haystack's shape. -/
theorem c2_find_scenario_counterexample :
    (find (⟨[2],[1,2]⟩ : Arr Nat) ⟨[6],[0,1,2,1,2,0]⟩ none).data ≠ [0,1,0,1,0] := by
  decide

/-- C2 (amended): with no fill in scope, `find([1,2], [0,1,2,1,2,0])`
returns the window mask `[0,1,0,1,0]` (one entry per window position,
`6 - 2 + 1 = 5` of them) padded with a trailing zero back to the
haystack's shape `[6]`, i.e. the boolean array `[0,1,0,1,0,0]`. -/
theorem c2_find_scenario :
    find (⟨[2],[1,2]⟩ : Arr Nat) ⟨[6],[0,1,2,1,2,0]⟩ none = ⟨[6],[0,1,0,1,0,0]⟩ := by
  decide

/-- C1: `coordinate` is not total — with a needle of rank 1 and shape
`[0]` and a haystack of shape `[2,0]` (needle rank strictly below
haystack rank, suffix shapes compatible, and the haystack suffix matching
the needle's rank having zero elements), the source reaches its literal
`todo!()` and panics instead of returning a value or a typed error. -/
theorem c1_coordinate_todo_panic :
    coordinate (⟨[0],[]⟩ : Arr Nat) ⟨[2,0],[]⟩ = ROut.panicked "not yet implemented" := rfl

/-- C4 counterexample: with rerank parameter 2, remembered original shape
`[5]` and a current array of shape `[1,1,4]` (current element count 4
differs from the original shape's count 5), `undo_rerank` succeeds but
changes the shape to `[4]` — it is not a no-op, because the source
compares the current count against the reconstructed shape's count, not
the remembered shape's. -/
theorem c4_undo_asymmetry_counterexample :
    (⟨[1,1,4],[0,1,2,3]⟩ : Arr Nat).data.length ≠ ([5] : List Nat).prod ∧
    undo_rerank 2 [5] (⟨[1,1,4],[0,1,2,3]⟩ : Arr Nat) = .ok ⟨[4],[0,1,2,3]⟩ ∧
    (⟨[4],[0,1,2,3]⟩ : Arr Nat) ≠ ⟨[1,1,4],[0,1,2,3]⟩ :=
  ⟨by decide, by rfl, by decide⟩

/-- C4 (amended): the asymmetry holds with the mismatch measured against
the reconstructed shape — whenever the element count of the shape
`undo_rerank` reconstructs from the rerank parameter and the remembered
original shape differs from the array's current element count,
`undo_rerank` returns success with the array completely unchanged, while
`undo_reshape` with an old shape of a different element count returns an
error. -/
theorem c4_undo_asymmetry (α : Type) :
    (∀ (a : Arr α) (rank : Int) (origShape : List Nat),
        (undoRerankShape rank origShape a.shape).prod ≠ a.data.length →
        undo_rerank rank origShape a = .ok a) ∧
    (∀ (a : Arr α) (origShape : List Nat),
        origShape.prod ≠ a.shape.prod → (undo_reshape origShape a).isOk = false) := by
  constructor
  · intro a rank origShape h
    unfold undo_rerank
    by_cases h0 : a.rank = 0
    · rw [if_pos h0]
    · rw [if_neg h0, if_pos h]
  · intro a origShape h
    unfold undo_reshape
    rw [if_neg h]
    rfl

/-- C4 witness: a count mismatch against the reconstructed shape is a
silent no-op for `undo_rerank`, while `undo_reshape` errors on its count
mismatch. -/
theorem c4_undo_asymmetry_witness :
    undo_rerank 1 [3,3] (⟨[2,2],[0,1,2,3]⟩ : Arr Nat) = .ok ⟨[2,2],[0,1,2,3]⟩ ∧
    (undo_reshape [7] (⟨[2,2],[0,1,2,3]⟩ : Arr Nat)).isOk = false :=
  ⟨(c4_undo_asymmetry Nat).1 ⟨[2,2],[0,1,2,3]⟩ 1 [3,3] (by decide),
   (c4_undo_asymmetry Nat).2 ⟨[2,2],[0,1,2,3]⟩ [7] (by decide)⟩

/-- Whether a specifier is a concrete non-negative integer. -/
def isNonnegInt : ShapeDim → Bool
  | .int n => decide (0 ≤ n)
  | .infinite _ => false

/-- C3 counterexample: the specifier list `[-2]` has magnitude product 2,
equal to the element count of `[1,2]`, yet reshaping by it reverses the
data (a negative specifier means "reverse along this axis") and
`undo_reshape` — a pure shape relabelling — does not undo the reversal:
the round trip returns `[2,1]`, not the original buffer. -/
theorem c3_reshape_roundtrip_counterexample :
    ([ShapeDim.int (-2)].map dimMagnitude).prod = (⟨[2],[1,2]⟩ : Arr Nat).data.length ∧
    (reshape [ShapeDim.int (-2)] none (⟨[2],[1,2]⟩ : Arr Nat)).bind (undo_reshape [2]) =
      .ok ⟨[2],[2,1]⟩ ∧
    (⟨[2],[2,1]⟩ : Arr Nat) ≠ ⟨[2],[1,2]⟩ :=
  ⟨by decide, by rfl, by decide⟩

/-- C3 (amended): for every array and every specifier list of concrete
non-negative integers whose product equals the array's element count,
`reshape` followed by `undo_reshape` with the original shape restores the
array exactly — shape and data buffer, element for element and in order. -/
theorem c3_reshape_roundtrip {α : Type} (a : Arr α) (dims : List ShapeDim)
    (fill : Option α)
    (hnn : dims.all isNonnegInt = true)
    (hcount : (dims.map dimMagnitude).prod = a.data.length)
    (hinv : a.data.length = a.shape.prod) :
    (reshape dims fill a).bind (undo_reshape a.shape) = .ok a := by
  have hmem : ∀ d ∈ dims, ∃ n : Int, d = .int n ∧ 0 ≤ n := by
    intro d hd
    have hh := List.all_eq_true.mp hnn d hd
    cases d with
    | int n => exact ⟨n, rfl, by simpa [isNonnegInt] using hh⟩
    | infinite r => simp [isNonnegInt] at hh
  have hfilter : dims.filter ShapeDim.isInf = [] := by
    rw [List.filter_eq_nil]
    intro d hd
    obtain ⟨n, hdn, _⟩ := hmem d hd
    subst hdn
    simp [ShapeDim.isInf]
  have hderive : deriveShape a.shape dims fill.isSome =
      .ok (dims.map (fun d => match d with | .int n => n | .infinite _ => 0)) := by
    unfold deriveShape
    rw [hfilter]
    simp
  set axes := dims.map (fun d => match d with | .int n => n | .infinite _ => 0) with haxes
  have haxnn : ∀ x ∈ axes, 0 ≤ x := by
    intro x hx
    rw [haxes] at hx
    obtain ⟨d, hd, hdx⟩ := List.mem_map.mp hx
    obtain ⟨n, hdn, hn0⟩ := hmem d hd
    subst hdn
    simp at hdx
    omega
  have hrev : (List.range axes.length).filter (fun i => decide (axes.getD i 0 < 0)) = [] := by
    rw [List.filter_eq_nil]
    intro i hi
    have hilt : i < axes.length := List.mem_range.mp hi
    have h0 : 0 ≤ axes.getD i 0 := by
      show 0 ≤ (axes.get? i).getD 0
      rw [List.get?_eq_get hilt]
      simpa using haxnn _ (List.get_mem axes i hilt)
    simp only [decide_eq_true_eq, not_lt]
    exact h0
  have hshape2 : (axes.map Int.natAbs).prod = a.data.length := by
    rw [haxes, List.map_map, ← hcount]
    congr 1
    apply List.map_congr_left
    intro d hd
    obtain ⟨n, hdn, _⟩ := hmem d hd
    subst hdn
    rfl
  unfold reshape
  rw [hderive]
  dsimp only
  rw [hrev, hshape2, if_neg (by omega), List.take_length]
  show undo_reshape a.shape (⟨axes.map Int.natAbs, a.data⟩ : Arr α) = .ok a
  unfold undo_reshape
  rw [if_pos (by rw [hshape2, hinv])]

/-- C3 witness: reshaping the 2-by-3 array `[0..5]` by `[3, 2]` and
undoing with `[2, 3]` restores it. -/
theorem c3_reshape_roundtrip_witness :
    (reshape [ShapeDim.int 3, ShapeDim.int 2] none (⟨[2,3],[0,1,2,3,4,5]⟩ : Arr Nat)).bind
      (undo_reshape [2,3]) = .ok ⟨[2,3],[0,1,2,3,4,5]⟩ :=
  c3_reshape_roundtrip (⟨[2,3],[0,1,2,3,4,5]⟩ : Arr Nat)
    [ShapeDim.int 3, ShapeDim.int 2] none (by decide) (by decide) (by decide)
